import Mathlib

/-!
Verification of the Starter-Data-Kits raster utilities
(`src/starterkits/utils.py`) against the repository specification.

The development shallowly embeds the parts of `utils.py` under test:

* `handle_exceptions` — the catch-all decorator (lines 27–39);
* `mask_raster_with_geometry` — the masking write-back (lines 41–75);
* `merge_rasters` — the sequential ("rasterio") merge engine
  (lines 77–144), including the temp-path generation
  `output_path.replace('.tif', f'_temp_merge_{i}.tif')`, the pairwise
  merge step, the final rename/promotion, and the post-loop cleanup.

File paths are lists of characters; the file system is an association
list from paths to rasters.  `rasterio.open` fails exactly when the
path is absent, writes always succeed, `os.remove`/`os.rename` follow
POSIX semantics.  The pairwise pixel combination embeds the documented
behaviour of `rasterio.merge.merge`'s default method `"first"`
("reverse painting"): the destination starts as nodata and each source,
taken in order, fills only pixels that are still nodata and where the
source itself is valid.
-/

set_option autoImplicit false

namespace StarterKits

/-- A file path, as a list of characters. -/
abbrev Path := List Char

/-- The characters of the literal `'.tif'` used by
`merge_rasters` (utils.py line 105). -/
def tifChars : Path := ['.', 't', 'i', 'f']

/-- The characters of the literal `'_temp_merge_'` from the f-string
`f'_temp_merge_{i}.tif'` (utils.py line 105). -/
def tempSep : Path := ['_', 't', 'e', 'm', 'p', '_', 'm', 'e', 'r', 'g', 'e', '_']

/-- The characters of the GTiff driver name set by the merge and mask
write-backs. -/
def gtiffChars : List Char := ['G', 'T', 'i', 'f', 'f']

/-- Fuel-indexed embedding of Python's `str.replace`: replaces every
non-overlapping occurrence of `pat` in the subject string, scanning left
to right.  The fuel is an upper bound on the subject length, so the
`0`-fuel fallback is never reached from `pyReplace`. -/
def pyReplaceAux (pat rep : List Char) : Nat → List Char → List Char
  | _, [] => []
  | 0, s => s
  | fuel + 1, c :: rest =>
    if pat ≠ [] ∧ (c :: rest).take pat.length = pat then
      rep ++ pyReplaceAux pat rep fuel ((c :: rest).drop pat.length)
    else
      c :: pyReplaceAux pat rep fuel rest

/-- Python's `s.replace(pat, rep)` for character lists. -/
def pyReplace (s pat rep : List Char) : List Char :=
  pyReplaceAux pat rep s.length s

/-- Decides whether `pat` occurs as a contiguous
substring of `s` (Python's `pat in s`). -/
def hasSub (pat : List Char) : List Char → Bool
  | [] => decide (pat = [])
  | c :: rest => decide ((c :: rest).take pat.length = pat) || hasSub pat rest

/-- The suffix `f'_temp_merge_{i}.tif'` (utils.py line 105). -/
def tempSuffix (i : Nat) : List Char :=
  tempSep ++ Nat.toDigits 10 i ++ tifChars

/-- The temp path of fold step `i`:
`output_path.replace('.tif', f'_temp_merge_{i}.tif')` (utils.py line 105). -/
def tempPath (out : Path) (i : Nat) : Path :=
  pyReplace out tifChars (tempSuffix i)

/-! ## Association lists: lookup, erase, write

These model both the file system (a map from paths to raster files)
and a raster's pixel data (a map from world coordinates to values). -/

section AssocOps

variable {κ : Type} {ν : Type} [DecidableEq κ]

/-- First-match lookup in an association list. -/
def alookup : List (κ × ν) → κ → Option ν
  | [], _ => none
  | e :: rest, k => if e.1 = k then some e.2 else alookup rest k

/-- Remove every entry with the given key (`os.remove` on the file
system: the key is absent afterwards). -/
def aerase : List (κ × ν) → κ → List (κ × ν)
  | [], _ => []
  | e :: rest, k => if e.1 = k then aerase rest k else e :: aerase rest k

/-- Create or overwrite the entry at a key (a raster write). -/
def awrite (l : List (κ × ν)) (k : κ) (v : ν) : List (κ × ν) :=
  (k, v) :: aerase l k

end AssocOps

/-! ## The raster data model

A raster file carries the metadata fields that `src.meta` exposes in
rasterio (`driver`, `dtype`, `nodata`, `width`, `height`, `count`,
`crs`, `transform`) together with its pixel data.  Pixels are kept as
an association list from world grid coordinates to values; the affine
transform is abstracted to the world coordinate of the grid origin
(the source assumes equal, axis-aligned resolutions across tiles,
spec §9). -/

/-- A world grid coordinate. -/
abbrev Coord := Int × Int

/-- A raster file: rasterio metadata plus pixel data. -/
structure Raster where
  driver : List Char
  crs : Nat
  dtype : Nat
  count : Nat
  nodata : Int
  height : Nat
  width : Nat
  transform : Int × Int
  data : List (Coord × Int)
deriving DecidableEq

/-- The value a raster holds at a world coordinate, `none` when the
coordinate is outside the raster's coverage. -/
def valueAt (r : Raster) (p : Coord) : Option Int :=
  alookup r.data p

/-- The contribution of one source raster at a coordinate under
`rasterio.merge`: `some v` when the raster covers the coordinate with a
value distinct from its own nodata, `none` when it is absent or masked
(its region mask marks its nodata pixels invalid). -/
def sourceVal (r : Raster) (p : Coord) : Option Int :=
  match valueAt r p with
  | some v => if v = r.nodata then none else some v
  | none => none

/-- Per-pixel overlap rule of `rasterio.merge.merge`'s default method
`"first"` (`copy_first`, "reverse painting"): the destination starts as
nodata; each source in order fills only pixels where the destination is
still nodata and the source is valid.  Hence the first valid source
wins. -/
def mergeFirstAt (dstNodata : Int) (v1 v2 : Option Int) : Int :=
  match v1 with
  | some a => a
  | none =>
    match v2 with
    | some b => b
    | none => dstNodata

/-- The coordinates covered by either input (the union extent). -/
def unionCoords (r1 r2 : Raster) : List Coord :=
  (r1.data.map Prod.fst ++ r2.data.map Prod.fst).dedup

/-- Pixel data of the pairwise mosaic `merge([src1, src2])`: the union
canvas, each pixel resolved by the `"first"` rule with `src1` painted
before `src2`, destination nodata taken from the first dataset. -/
def mergeData (r1 r2 : Raster) : List (Coord × Int) :=
  (unionCoords r1 r2).map fun p => (p, mergeFirstAt r1.nodata (sourceVal r1 p) (sourceVal r2 p))

/-- World origin of the union canvas of two rasters. -/
def unionTransform (r1 r2 : Raster) : Int × Int :=
  (min r1.transform.1 r2.transform.1, min r1.transform.2 r2.transform.2)

/-- Width of the union canvas. -/
def unionWidth (r1 r2 : Raster) : Nat :=
  (max (r1.transform.1 + r1.width) (r2.transform.1 + r2.width) -
    min r1.transform.1 r2.transform.1).toNat

/-- Height of the union canvas. -/
def unionHeight (r1 r2 : Raster) : Nat :=
  (max (r1.transform.2 + r1.height) (r2.transform.2 + r2.height) -
    min r1.transform.2 r2.transform.2).toNat

/-- One pairwise step of `merge_rasters` (utils.py lines 108–119):
`mosaic, out_trans = merge([src1, src2])`, then
`out_meta = src1.meta.copy()` updated with only `driver`, `height`,
`width` and `transform`; every other metadata field (crs, dtype,
nodata, count) stays that of the first input. -/
def mergePair (r1 r2 : Raster) : Raster :=
  { r1 with
    driver := gtiffChars
    height := unionHeight r1 r2
    width := unionWidth r1 r2
    transform := unionTransform r1 r2
    data := mergeData r1 r2 }

/-- The file system: an association list from paths to raster files. -/
abbrev FS := List (Path × Raster)

/-! ## The sequential merge orchestrator (`merge_rasters`, rasterio branch)

The loop state mirrors the Python locals: the file system, the
`current_mosaic_path` variable, and the `temp_files` list. -/

/-- The state of the `for i in range(1, len(raster_paths))` loop of
`merge_rasters`. -/
structure LoopSt where
  fs : FS
  cur : Path
  temps : List Path
deriving DecidableEq

/-- The pairwise loop of `merge_rasters` (utils.py lines 101–121),
processing the remaining tile paths with `i` the current step index.
Each step computes the temp path, appends it to `temp_files` (line 106,
before the opens), opens the current mosaic and the next tile
(`rasterio.open` raises when either file is absent, halting the whole
call with the file system as it stands), writes the pairwise mosaic to
the temp path, and advances `current_mosaic_path`.  The Boolean records
whether the loop ran to completion. -/
def runLoop (out : Path) : List Path → Nat → LoopSt → LoopSt × Bool
  | [], _, st => (st, true)
  | next :: rest, i, st =>
    let temp := tempPath out i
    match alookup st.fs st.cur, alookup st.fs next with
    | some r1, some r2 =>
        runLoop out rest (i + 1)
          ⟨awrite st.fs temp (mergePair r1 r2), temp, st.temps ++ [temp]⟩
    | _, _ => (⟨st.fs, st.cur, st.temps ++ [temp]⟩, false)

/-- Python's `list.remove`: drop the first occurrence of an element
(utils.py line 135). -/
def removeFirst (l : List Path) (x : Path) : List Path :=
  match l with
  | [] => []
  | y :: rest => if y = x then rest else y :: removeFirst rest x

/-- Embeds `if os.path.exists(p): os.remove(p)` (utils.py lines 132–133 and
139–140). -/
def removeIfPresent (fs : FS) (p : Path) : FS :=
  if (alookup fs p).isSome then aerase fs p else fs

/-- The post-loop cleanup (utils.py lines 138–140):
`for f in temp_files: if os.path.exists(f): os.remove(f)`. -/
def cleanupAll (fs : FS) (l : List Path) : FS :=
  l.foldl removeIfPresent fs

/-- The sequential (`method='rasterio'`) branch of `merge_rasters`
(utils.py lines 86–140): empty input returns immediately; otherwise the
pairwise loop runs; a single-path input is then copied verbatim to the
output (lines 125–129); otherwise the output path is removed if present,
the final temp file is renamed onto it (`os.rename` raises when its
source is absent), the renamed path is dropped from `temp_files`, and
the remaining temp files are deleted.  The Boolean records whether the
call returned without raising. -/
def merge_rasters (raster_paths : List Path) (output_path : Path) (fs : FS) : FS × Bool :=
  match raster_paths with
  | [] => (fs, true)
  | p0 :: rest =>
    match runLoop output_path rest 1 ⟨fs, p0, []⟩ with
    | (st, false) => (st.fs, false)
    | (st, true) =>
      match rest with
      | [] =>
        match alookup st.fs p0 with
        | none => (st.fs, false)
        | some r => (cleanupAll (awrite st.fs output_path r) st.temps, true)
      | _ :: _ =>
        match alookup (removeIfPresent st.fs output_path) st.cur with
        | none => (removeIfPresent st.fs output_path, false)
        | some r =>
          (cleanupAll
            (awrite (aerase (removeIfPresent st.fs output_path) st.cur) output_path r)
            (removeFirst st.temps st.cur), true)

/-! ## The masking write-back (`mask_raster_with_geometry`) -/

/-- An abstract vector geometry identifier. -/
abbrev Geom := Nat

/-- The result of the external `rasterio.mask.mask(src, shapes,
crop=True)` call: the cropped image's band count and shape together
with the recomputed window transform, plus the cropped pixels. -/
structure CropRes where
  bands : Nat
  height : Nat
  width : Nat
  transform : Int × Int
  data : List (Coord × Int)
deriving DecidableEq

/-- The output raster assembled by the masking write-back (utils.py
lines 63–70): the source metadata copied, with only `driver`, `height`,
`width` and `transform` updated from the crop result. -/
def maskOutput (src : Raster) (c : CropRes) : Raster :=
  { src with
    driver := gtiffChars
    height := c.height
    width := c.width
    transform := c.transform
    data := c.data }

/-- Embeds `mask_raster_with_geometry` (utils.py lines 41–75), the list-input
branch, parameterised by the external cropping routine `maskFn`
(`rasterio.mask.mask`).  It opens the source (raising when absent),
crops, copies the source metadata and updates only `driver`, `height`,
`width` and `transform` from the crop (lines 63–70), and writes the
result to the output path. -/
def mask_raster_with_geometry (maskFn : Raster → List Geom → CropRes)
    (fs : FS) (raster_path : Path) (shapes : List Geom) (output_path : Path) :
    FS × Bool :=
  match alookup fs raster_path with
  | none => (fs, false)
  | some src => (awrite fs output_path (maskOutput src (maskFn src shapes)), true)

/-! ## The catch-all decorator (`handle_exceptions`) -/

/-- The `handle_exceptions` decorator (utils.py lines 27–39): the
wrapped call's outcome is an `Except` (a raised exception or a normal
return); the wrapper returns the result unchanged on a normal return
and prints-and-returns-`None` on any exception. -/
def handle_exceptions {α ε β : Type} (func : α → Except ε β) (a : α) : Option β :=
  match func a with
  | Except.ok b => some b
  | Except.error _ => none

/-- The temp paths of steps `i, i+1, …, i+n-1`. -/
def tempsFrom (out : Path) (i n : Nat) : List Path :=
  match n with
  | 0 => []
  | m + 1 => tempPath out i :: tempsFrom out (i + 1) m

/-! ## Sample rasters and paths used by witnesses -/

/-- A sample tile holding value 5 at the origin. -/
def tileA : Raster :=
  { driver := gtiffChars, crs := 1, dtype := 2, count := 1, nodata := 0
    height := 1, width := 1, transform := (0, 0), data := [((0, 0), 5)] }

/-- A sample tile holding value 7 at the origin. -/
def tileB : Raster :=
  { driver := gtiffChars, crs := 1, dtype := 2, count := 1, nodata := 0
    height := 1, width := 1, transform := (0, 0), data := [((0, 0), 7)] }

/-- A sample tile holding its nodata value at the origin. -/
def tileN : Raster :=
  { driver := gtiffChars, crs := 1, dtype := 2, count := 1, nodata := 0
    height := 1, width := 1, transform := (0, 0), data := [((0, 0), 0)] }

/-- A sample destination path `o.tif`. -/
def outTif : Path := ['o', '.', 't', 'i', 'f']

/-- Sample tile paths. -/
def pA : Path := ['a']

/-- Sample tile paths. -/
def pB : Path := ['b']

/-- Sample tile paths. -/
def pC : Path := ['c']

/-- Sample tile paths. -/
def pD : Path := ['d']

/-- A sample file system holding three tiles. -/
def fs3 : FS := [(pA, tileA), (pB, tileB), (pC, tileN)]

/-- A tile with metadata entirely different from `tileA`'s. -/
def tileX : Raster :=
  { driver := ['X'], crs := 9, dtype := 8, count := 2, nodata := 4
    height := 3, width := 3, transform := (2, 2), data := [((2, 2), 11)] }

/-- A sample file system whose later tiles carry different metadata. -/
def fs4 : FS := [(pA, tileA), (pB, tileB), (pD, tileX)]

/-- A sample cropping result standing in for `rasterio.mask.mask`. -/
def cropSample : CropRes :=
  { bands := 1, height := 2, width := 3, transform := (4, 5), data := [((4, 5), 1)] }

/-- A sample fallible call for the decorator: raises on `0`, returns
the successor otherwise. -/
def sampleCall (n : Nat) : Except Nat Nat :=
  if n = 0 then Except.error 9 else Except.ok (n + 1)

/-! ## Lemmas about the path machinery -/

theorem pyReplaceAux_eq_self_of_not_hasSub (pat rep : List Char) :
    ∀ (fuel : Nat) (s : List Char), s.length ≤ fuel →
      hasSub pat s = false → pyReplaceAux pat rep fuel s = s := by
  intro fuel
  induction fuel with
  | zero =>
    intro s hs _
    interval_cases hlen : s.length
    · cases s with
      | nil => rfl
      | cons c rest => simp at hlen
  | succ n ih =>
    intro s hs hsub
    cases s with
    | nil => rfl
    | cons c rest =>
      simp only [hasSub, Bool.or_eq_false_iff, decide_eq_false_iff_not] at hsub
      rw [pyReplaceAux]
      rw [if_neg (by tauto)]
      have : rest.length ≤ n := by simp at hs; omega
      rw [ih rest this hsub.2]

theorem pyReplaceAux_length_ge (pat rep : List Char) (hlen : pat.length ≤ rep.length) :
    ∀ (fuel : Nat) (s : List Char), s.length ≤ fuel →
      s.length ≤ (pyReplaceAux pat rep fuel s).length := by
  intro fuel
  induction fuel with
  | zero =>
    intro s hs
    have : s = [] := List.length_eq_zero.mp (Nat.le_zero.mp hs)
    subst this; simp [pyReplaceAux]
  | succ n ih =>
    intro s hs
    cases s with
    | nil => simp [pyReplaceAux]
    | cons c rest =>
      rw [pyReplaceAux]
      by_cases hmatch : pat ≠ [] ∧ (c :: rest).take pat.length = pat
      · rw [if_pos hmatch]
        have hplen : pat.length ≤ (c :: rest).length := by
          have := congrArg List.length hmatch.2
          simp only [List.length_take] at this
          omega
        have hdrop : ((c :: rest).drop pat.length).length ≤ n := by
          simp only [List.length_drop]
          have hne : 0 < pat.length := List.length_pos.mpr hmatch.1
          simp only [List.length_cons] at hs ⊢
          omega
        have hrec := ih ((c :: rest).drop pat.length) hdrop
        simp only [List.length_append, List.length_drop] at *
        omega
      · rw [if_neg hmatch]
        have : rest.length ≤ n := by simp at hs; omega
        have := ih rest this
        simp only [List.length_cons]
        omega

theorem pyReplaceAux_length_gt (pat rep : List Char)
    (hne : pat ≠ []) (hlen : pat.length < rep.length) :
    ∀ (fuel : Nat) (s : List Char), s.length ≤ fuel →
      hasSub pat s = true → s.length < (pyReplaceAux pat rep fuel s).length := by
  intro fuel
  induction fuel with
  | zero =>
    intro s hs hsub
    have : s = [] := List.length_eq_zero.mp (Nat.le_zero.mp hs)
    subst this
    simp only [hasSub, decide_eq_true_eq] at hsub
    exact absurd hsub hne
  | succ n ih =>
    intro s hs hsub
    cases s with
    | nil =>
      simp only [hasSub, decide_eq_true_eq] at hsub
      exact absurd hsub hne
    | cons c rest =>
      rw [pyReplaceAux]
      by_cases hmatch : pat ≠ [] ∧ (c :: rest).take pat.length = pat
      · rw [if_pos hmatch]
        have hplen : pat.length ≤ (c :: rest).length := by
          have := congrArg List.length hmatch.2
          simp only [List.length_take] at this
          omega
        have hne0 : 0 < pat.length := List.length_pos.mpr hmatch.1
        have hdrop : ((c :: rest).drop pat.length).length ≤ n := by
          simp only [List.length_drop]
          simp only [List.length_cons] at hs ⊢
          omega
        have hrec := pyReplaceAux_length_ge pat rep (Nat.le_of_lt hlen)
          n ((c :: rest).drop pat.length) hdrop
        simp only [List.length_append, List.length_drop] at *
        omega
      · rw [if_neg hmatch]
        simp only [hasSub, Bool.or_eq_true, decide_eq_true_eq] at hsub
        rcases hsub with hsub | hsub
        · exact absurd ⟨hne, hsub⟩ hmatch
        · have hrl : rest.length ≤ n := by simp at hs; omega
          have := ih rest hrl hsub
          simp only [List.length_cons]
          omega

/-- If the destination path does not contain `'.tif'`, the `str.replace`
in `merge_rasters` is the identity: every step's temp path is the
destination path itself. -/
theorem tempPath_eq_of_no_tif (out : Path) (h : hasSub tifChars out = false)
    (i : Nat) : tempPath out i = out :=
  pyReplaceAux_eq_self_of_not_hasSub tifChars (tempSuffix i) out.length out
    (Nat.le_refl _) h

/-- If the destination path does contain `'.tif'`, every temp path is
strictly longer than the destination path, in particular distinct from it. -/
theorem tempPath_ne_of_tif (out : Path) (h : hasSub tifChars out = true)
    (i : Nat) : tempPath out i ≠ out := by
  have hne : tifChars ≠ [] := by decide
  have hlen : tifChars.length < (tempSuffix i).length := by
    simp only [tempSuffix, List.length_append]
    have h1 : tempSep.length = 12 := by decide
    have h2 : tifChars.length = 4 := by decide
    omega
  have := pyReplaceAux_length_gt tifChars (tempSuffix i) hne hlen
    out.length out (Nat.le_refl _) h
  intro heq
  have := congrArg List.length heq
  simp only [tempPath, pyReplace] at *
  omega

/-! ## Lemmas about association lists -/

section AssocLemmas

variable {κ : Type} {ν : Type} [DecidableEq κ]

theorem alookup_aerase (l : List (κ × ν)) (k k' : κ) :
    alookup (aerase l k) k' = if k' = k then none else alookup l k' := by
  induction l with
  | nil => simp [aerase, alookup]
  | cons e rest ih =>
    by_cases he : e.1 = k
    · rw [aerase, if_pos he, ih]
      by_cases hk : k' = k
      · simp [hk]
      · have hek : ¬(e.1 = k') := by rw [he]; exact fun h => hk h.symm
        rw [if_neg hk, if_neg hk, alookup, if_neg hek]
    · rw [aerase, if_neg he, alookup]
      by_cases hek : e.1 = k'
      · have hk : ¬(k' = k) := fun h => he (hek.trans h)
        rw [if_pos hek, if_neg hk, alookup, if_pos hek]
      · rw [if_neg hek, ih, alookup, if_neg hek]

theorem alookup_awrite (l : List (κ × ν)) (k k' : κ) (v : ν) :
    alookup (awrite l k v) k' = if k' = k then some v else alookup l k' := by
  rw [awrite, alookup]
  by_cases hk : k' = k
  · rw [if_pos hk.symm, if_pos hk]
  · rw [if_neg (fun h => hk h.symm), if_neg hk, alookup_aerase, if_neg hk]

theorem aerase_of_alookup_none (l : List (κ × ν)) (k : κ)
    (h : alookup l k = none) : aerase l k = l := by
  induction l with
  | nil => rfl
  | cons e rest ih =>
    rw [alookup] at h
    by_cases he : e.1 = k
    · rw [if_pos he] at h; exact absurd h (by simp)
    · rw [if_neg he] at h
      rw [aerase, if_neg he, ih h]

theorem mem_keys_of_alookup_eq_some (l : List (κ × ν)) (k : κ) (v : ν)
    (h : alookup l k = some v) : k ∈ l.map Prod.fst := by
  induction l with
  | nil => simp [alookup] at h
  | cons e rest ih =>
    rw [alookup] at h
    by_cases he : e.1 = k
    · simp [← he]
    · rw [if_neg he] at h
      simp [ih h]

theorem alookup_map_self {f : κ → ν} (l : List κ) (k : κ) :
    alookup (l.map fun x => (x, f x)) k =
      if k ∈ l then some (f k) else none := by
  induction l with
  | nil => simp [alookup]
  | cons x rest ih =>
    simp only [List.map_cons, alookup]
    by_cases hx : x = k
    · subst hx; simp
    · rw [if_neg hx, ih]
      by_cases hk : k ∈ rest
      · simp [hk]
      · have hnot : k ∉ x :: rest := by
          intro h
          rcases List.mem_cons.mp h with h | h
          · exact hx h.symm
          · exact hk h
        rw [if_neg hk, if_neg hnot]

end AssocLemmas

/-! ## Lemmas about the pairwise loop -/

theorem mem_tempsFrom (out : Path) :
    ∀ (n i j : Nat), i ≤ j → j < i + n → tempPath out j ∈ tempsFrom out i n := by
  intro n
  induction n with
  | zero => intro i j h1 h2; omega
  | succ m ih =>
    intro i j h1 h2
    rw [tempsFrom]
    by_cases hj : j = i
    · subst hj; exact List.mem_cons_self _ _
    · exact List.mem_cons_of_mem _ (ih (i + 1) j (by omega) (by omega))

theorem tempsFrom_mem_iff (out : Path) :
    ∀ (n i : Nat) (t : Path), t ∈ tempsFrom out i n ↔
      ∃ j, i ≤ j ∧ j < i + n ∧ t = tempPath out j := by
  intro n
  induction n with
  | zero =>
    intro i t
    simp only [tempsFrom, List.not_mem_nil, false_iff]
    rintro ⟨j, h1, h2, _⟩; omega
  | succ m ih =>
    intro i t
    rw [tempsFrom, List.mem_cons, ih]
    constructor
    · rintro (h | ⟨j, h1, h2, h3⟩)
      · exact ⟨i, by omega, by omega, h⟩
      · exact ⟨j, by omega, by omega, h3⟩
    · rintro ⟨j, h1, h2, h3⟩
      by_cases hj : j = i
      · subst hj; exact Or.inl h3
      · exact Or.inr ⟨j, by omega, by omega, h3⟩

/-- On a completed loop, the accumulated `temp_files` list is the
initial one followed by the temp paths of every step taken. -/
theorem runLoop_temps_of_success (out : Path) :
    ∀ (ts : List Path) (i : Nat) (st st' : LoopSt),
      runLoop out ts i st = (st', true) →
      st'.temps = st.temps ++ tempsFrom out i ts.length := by
  intro ts
  induction ts with
  | nil =>
    intro i st st' h
    rw [runLoop] at h
    cases h
    simp [tempsFrom]
  | cons next rest ih =>
    intro i st st' h
    rw [runLoop] at h
    rcases h1 : alookup st.fs st.cur with _ | r1 <;>
      rcases h2 : alookup st.fs next with _ | r2 <;>
      rw [h1, h2] at h <;> simp only [] at h
    · cases h
    · cases h
    · cases h
    · have := ih (i + 1) _ _ h
      simp only [List.length_cons, tempsFrom]
      rw [this]
      simp

/-- On a completed non-trivial loop, `current_mosaic_path` is the temp
path of the last step. -/
theorem runLoop_cur_of_success (out : Path) :
    ∀ (ts : List Path) (i : Nat) (st st' : LoopSt), ts ≠ [] →
      runLoop out ts i st = (st', true) →
      st'.cur = tempPath out (i + ts.length - 1) := by
  intro ts
  induction ts with
  | nil => intro i st st' h; exact absurd rfl h
  | cons next rest ih =>
    intro i st st' _ h
    rw [runLoop] at h
    rcases h1 : alookup st.fs st.cur with _ | r1 <;>
      rcases h2 : alookup st.fs next with _ | r2 <;>
      rw [h1, h2] at h <;> simp only [] at h
    · cases h
    · cases h
    · cases h
    · cases rest with
      | nil =>
        rw [runLoop] at h
        cases h
        simp
      | cons q qs =>
        have := ih (i + 1) _ _ (by simp) h
        rw [this]
        simp only [List.length_cons]
        congr 1
        omega

/-- Invariant carried along `current_mosaic_path` by a completed loop:
any property of rasters preserved by the pairwise step holds of the
raster the final mosaic path points to, provided it held of the raster
the initial path pointed to. -/
theorem runLoop_cur_val (out : Path) (P : Raster → Prop)
    (hP : ∀ r1 r2, P r1 → P (mergePair r1 r2)) :
    ∀ (ts : List Path) (i : Nat) (st st' : LoopSt),
      runLoop out ts i st = (st', true) →
      (∃ c, alookup st.fs st.cur = some c ∧ P c) →
      ∃ c', alookup st'.fs st'.cur = some c' ∧ P c' := by
  intro ts
  induction ts with
  | nil =>
    intro i st st' h hc
    rw [runLoop] at h
    cases h
    exact hc
  | cons next rest ih =>
    intro i st st' h hc
    rw [runLoop] at h
    rcases h1 : alookup st.fs st.cur with _ | r1 <;>
      rcases h2 : alookup st.fs next with _ | r2 <;>
      rw [h1, h2] at h <;> simp only [] at h
    · cases h
    · cases h
    · cases h
    · rcases hc with ⟨c, hc1, hc2⟩
      rw [h1] at hc1
      cases hc1
      refine ih (i + 1) _ _ h ⟨mergePair r1 r2, ?_, hP r1 r2 hc2⟩
      simp [alookup_awrite]

/-- No file is deleted while the loop runs: every temp path recorded in
`temp_files` whose step has completed still has a file at the end of
the loop, whether the loop completed (`true`: all recorded temps) or a
step raised (`false`: all but the last recorded temp, which is the
failed step's never-written path). -/
theorem runLoop_temps_live (out : Path) :
    ∀ (ts : List Path) (i : Nat) (st st' : LoopSt) (b : Bool),
      (∀ t ∈ st.temps, (alookup st.fs t).isSome = true) →
      runLoop out ts i st = (st', b) →
      (b = true → ∀ t ∈ st'.temps, (alookup st'.fs t).isSome = true) ∧
      (b = false → ∀ t ∈ st'.temps.dropLast, (alookup st'.fs t).isSome = true) := by
  intro ts
  induction ts with
  | nil =>
    intro i st st' b hinv h
    rw [runLoop] at h
    cases h
    exact ⟨fun _ => hinv, fun hb => by cases hb⟩
  | cons next rest ih =>
    intro i st st' b hinv h
    rw [runLoop] at h
    rcases h1 : alookup st.fs st.cur with _ | r1 <;>
      rcases h2 : alookup st.fs next with _ | r2 <;>
      rw [h1, h2] at h <;> simp only [] at h
    · cases h
      refine ⟨(fun hb => Bool.noConfusion hb), fun _ => ?_⟩
      simp only [List.dropLast_concat]
      exact hinv
    · cases h
      refine ⟨(fun hb => Bool.noConfusion hb), fun _ => ?_⟩
      simp only [List.dropLast_concat]
      exact hinv
    · cases h
      refine ⟨(fun hb => Bool.noConfusion hb), fun _ => ?_⟩
      simp only [List.dropLast_concat]
      exact hinv
    · refine ih (i + 1) _ _ b ?_ h
      intro t ht
      rcases List.mem_append.mp ht with ht | ht
      · rw [alookup_awrite]
        by_cases he : t = tempPath out i
        · simp [he]
        · rw [if_neg he]
          exact hinv t ht
      · have : t = tempPath out i := by simpa using ht
        simp [this, alookup_awrite]

/-! ## Lemmas about the cleanup pass -/

theorem removeIfPresent_eq_aerase (fs : FS) (t : Path) :
    removeIfPresent fs t = aerase fs t := by
  rw [removeIfPresent]
  rcases h : alookup fs t with _ | r
  · rw [if_neg (by simp [h]), aerase_of_alookup_none fs t h]
  · rw [if_pos (by simp [h])]

theorem alookup_removeIfPresent (fs : FS) (t p : Path) :
    alookup (removeIfPresent fs t) p = if p = t then none else alookup fs p := by
  rw [removeIfPresent_eq_aerase, alookup_aerase]

theorem cleanupAll_alookup (l : List Path) :
    ∀ (fs : FS) (p : Path),
      alookup (cleanupAll fs l) p = if p ∈ l then none else alookup fs p := by
  induction l with
  | nil => intro fs p; simp [cleanupAll]
  | cons t rest ih =>
    intro fs p
    have hstep : cleanupAll fs (t :: rest) = cleanupAll (aerase fs t) rest := by
      rw [cleanupAll, List.foldl_cons, removeIfPresent_eq_aerase]
      rfl
    rw [hstep, ih]
    by_cases hp : p ∈ rest
    · simp [hp]
    · rw [if_neg hp, alookup_aerase]
      by_cases hpt : p = t
      · simp [hpt]
      · rw [if_neg hpt, if_neg (by simp [hpt, hp])]

theorem removeFirst_subset (x : Path) :
    ∀ (l : List Path) (t : Path), t ∈ removeFirst l x → t ∈ l := by
  intro l
  induction l with
  | nil => intro t h; simp [removeFirst] at h
  | cons y rest ih =>
    intro t h
    rw [removeFirst] at h
    by_cases hy : y = x
    · rw [if_pos hy] at h
      exact List.mem_cons_of_mem _ h
    · rw [if_neg hy] at h
      rcases List.mem_cons.mp h with h | h
      · exact h ▸ List.mem_cons_self _ _
      · exact List.mem_cons_of_mem _ (ih t h)

theorem mem_removeFirst_or_eq (x : Path) :
    ∀ (l : List Path) (t : Path), t ∈ l → t ∈ removeFirst l x ∨ t = x := by
  intro l
  induction l with
  | nil => intro t h; simp at h
  | cons y rest ih =>
    intro t h
    rw [removeFirst]
    by_cases hy : y = x
    · rw [if_pos hy]
      rcases List.mem_cons.mp h with h | h
      · exact Or.inr (h.trans hy)
      · exact Or.inl h
    · rw [if_neg hy]
      rcases List.mem_cons.mp h with h | h
      · exact Or.inl (h ▸ List.mem_cons_self _ _)
      · rcases ih t h with h' | h'
        · exact Or.inl (List.mem_cons_of_mem _ h')
        · exact Or.inr h'

/-! ## Characterisation of a successful merge -/

/-- What a successful `merge_rasters` call guarantees: for a single
input the tile is copied verbatim to the output; for several inputs the
loop completed, the raster the final `current_mosaic_path` pointed to
now sits at the output path, and no step's temp path holds a file any
more. -/
theorem merge_success_spec (p0 : Path) (rest : List Path) (out : Path) (fs fs' : FS)
    (h : merge_rasters (p0 :: rest) out fs = (fs', true)) :
    (rest = [] → ∃ r, alookup fs p0 = some r ∧ fs' = awrite fs out r) ∧
    (rest ≠ [] → ∃ st r, runLoop out rest 1 ⟨fs, p0, []⟩ = (st, true) ∧
      alookup st.fs st.cur = some r ∧
      alookup fs' out = some r ∧
      ∀ i, 1 ≤ i → i ≤ rest.length → alookup fs' (tempPath out i) = none) := by
  rcases hrl : runLoop out rest 1 ⟨fs, p0, []⟩ with ⟨st, b⟩
  cases b with
  | false =>
    simp only [merge_rasters, hrl] at h
    exact Bool.noConfusion (congrArg Prod.snd h)
  | true =>
  cases rest with
  | nil =>
    refine ⟨fun _ => ?_, fun hne => absurd rfl hne⟩
    rw [runLoop] at hrl
    injection hrl with hst _
    subst hst
    rcases hp : alookup fs p0 with _ | r
    · simp only [merge_rasters, runLoop, hp] at h
      exact Bool.noConfusion (congrArg Prod.snd h)
    · simp only [merge_rasters, runLoop, hp, cleanupAll, List.foldl_nil,
        Prod.mk.injEq, and_true] at h
      exact ⟨r, rfl, h.symm⟩
  | cons q qs =>
    refine ⟨(fun he => List.noConfusion he), fun _ => ?_⟩
    rcases hc : alookup (removeIfPresent st.fs out) st.cur with _ | r
    · simp only [merge_rasters, hrl, hc] at h
      exact Bool.noConfusion (congrArg Prod.snd h)
    · simp only [merge_rasters, hrl, hc, Prod.mk.injEq, and_true] at h
      have hcur : st.cur = tempPath out (q :: qs).length := by
        have := runLoop_cur_of_success out (q :: qs) 1 _ _ (by simp) hrl
        rw [this]
        congr 1
        simp
      have htemps : st.temps = tempsFrom out 1 (q :: qs).length := by
        have := runLoop_temps_of_success out (q :: qs) 1 _ _ hrl
        simpa using this
      have hcne : st.cur ≠ out := by
        intro heq
        rw [heq, alookup_removeIfPresent, if_pos rfl] at hc
        cases hc
      have htif : hasSub tifChars out = true := by
        cases hsub : hasSub tifChars out
        · exact absurd (hcur.trans (tempPath_eq_of_no_tif out hsub _)) hcne
        · rfl
      have htne : ∀ j, tempPath out j ≠ out := tempPath_ne_of_tif out htif
      have houtmem : out ∉ removeFirst st.temps st.cur := by
        intro hmem
        have := removeFirst_subset st.cur st.temps out hmem
        rw [htemps, tempsFrom_mem_iff] at this
        rcases this with ⟨j, _, _, hj⟩
        exact htne j hj.symm
      have hr : alookup st.fs st.cur = some r := by
        rw [alookup_removeIfPresent, if_neg hcne] at hc
        exact hc
      refine ⟨st, r, rfl, hr, ?_, ?_⟩
      · rw [← h, cleanupAll_alookup, if_neg houtmem, alookup_awrite, if_pos rfl]
      · intro i hi1 hi2
        have hmem : tempPath out i ∈ st.temps := by
          rw [htemps]
          exact mem_tempsFrom out _ 1 i hi1 (by omega)
        rcases mem_removeFirst_or_eq st.cur st.temps _ hmem with hin | heq
        · rw [← h, cleanupAll_alookup, if_pos hin]
        · rw [← h, cleanupAll_alookup]
          by_cases hin : tempPath out i ∈ removeFirst st.temps st.cur
          · rw [if_pos hin]
          · rw [if_neg hin, heq, alookup_awrite,
              if_neg hcne, alookup_aerase, if_pos rfl]

/-! ## Pixel-level lemmas for the pairwise mosaic -/

theorem mem_unionCoords_left (a b : Raster) (p : Coord) (v : Int)
    (h : valueAt a p = some v) : p ∈ unionCoords a b := by
  rw [unionCoords, List.mem_dedup, List.mem_append]
  exact Or.inl (mem_keys_of_alookup_eq_some _ _ _ h)

theorem valueAt_mergePair (a b : Raster) (p : Coord) (h : p ∈ unionCoords a b) :
    valueAt (mergePair a b) p =
      some (mergeFirstAt a.nodata (sourceVal a p) (sourceVal b p)) := by
  show alookup (mergeData a b) p = _
  rw [mergeData, alookup_map_self, if_pos h]

theorem sourceVal_eq_of_valid (a : Raster) (p : Coord) (v : Int)
    (h : valueAt a p = some v) (hv : v ≠ a.nodata) : sourceVal a p = some v := by
  simp only [sourceVal, h]
  rw [if_neg hv]

/-! ## Claim theorems -/

/-- C1 counterexample: tiles `tileA` (value 5) and `tileB` (value 7)
share a CRS, overlap at the origin and both hold non-nodata values
there, yet the pairwise mosaic of `(tileA, tileB)` yields `tileA`'s
value 5 — not `tileB`'s value 7 as the claim states. -/
theorem mosaic_later_tile_precedence_cex :
    tileA.crs = tileB.crs ∧
    valueAt tileA (0, 0) = some 5 ∧ valueAt tileB (0, 0) = some 7 ∧
    (5 : Int) ≠ tileA.nodata ∧ (7 : Int) ≠ tileB.nodata ∧
    valueAt (mergePair tileA tileB) (0, 0) ≠ some 7 ∧
    valueAt (mergePair tileA tileB) (0, 0) = some 5 := by
  decide

/-- C1 (amended): for tiles sharing a CRS and overlapping at `p` with
non-nodata values on both sides, the EARLIER tile in evaluation order
takes precedence (`rasterio.merge`'s default method `"first"`):
`mosaic(A,B)` yields A's value and `mosaic(B,A)` yields B's, so the
merge is still not commutative on overlapping non-nodata data. -/
theorem mosaic_earlier_tile_precedence (a b : Raster) (p : Coord) (va vb : Int)
    (hcrs : a.crs = b.crs)
    (ha : valueAt a p = some va) (hva : va ≠ a.nodata)
    (hb : valueAt b p = some vb) (hvb : vb ≠ b.nodata) :
    valueAt (mergePair a b) p = some va ∧
    valueAt (mergePair b a) p = some vb := by
  constructor
  · rw [valueAt_mergePair a b p (mem_unionCoords_left a b p va ha),
      sourceVal_eq_of_valid a p va ha hva]
    rfl
  · rw [valueAt_mergePair b a p (mem_unionCoords_left b a p vb hb),
      sourceVal_eq_of_valid b p vb hb hvb]
    rfl

/-- Witness for C1 (amended) at the concrete overlapping tiles. -/
theorem mosaic_earlier_tile_precedence_witness :
    valueAt (mergePair tileA tileB) (0, 0) = some 5 ∧
    valueAt (mergePair tileB tileA) (0, 0) = some 7 :=
  mosaic_earlier_tile_precedence tileA tileB (0, 0) 5 7
    (by decide) (by decide) (by decide) (by decide) (by decide)

/-- C2 counterexample: merging `[a, b, c, d]` where `d` does not exist
fails at pairwise step 3, and the temp artifacts written by the
completed steps 1 and 2 are BOTH still on disk at the failure — the
claim allows at most the currently-building artifact to remain, and
says step 1's artifact was already deleted when step 2 completed. -/
theorem merge_incremental_cleanup_cex :
    (merge_rasters [pA, pB, pC, pD] outTif fs3).2 = false ∧
    (alookup (merge_rasters [pA, pB, pC, pD] outTif fs3).1
      (tempPath outTif 1)).isSome = true ∧
    (alookup (merge_rasters [pA, pB, pC, pD] outTif fs3).1
      (tempPath outTif 2)).isSome = true := by
  decide

/-- C2 (amended): no temp artifact is deleted while the pairwise loop
runs — cleanup is deferred to after the loop.  On loop completion every
recorded temp artifact still has a file; if a pairwise step fails,
every temp artifact of a completed earlier step (all of them, not just
the most recent) is still on disk. -/
theorem merge_loop_deferred_cleanup (out : Path) (ts : List Path) (fs : FS)
    (p0 : Path) (st' : LoopSt) (b : Bool)
    (h : runLoop out ts 1 ⟨fs, p0, []⟩ = (st', b)) :
    (b = true → ∀ t ∈ st'.temps, (alookup st'.fs t).isSome = true) ∧
    (b = false → ∀ t ∈ st'.temps.dropLast, (alookup st'.fs t).isSome = true) :=
  runLoop_temps_live out ts 1 ⟨fs, p0, []⟩ st' b
    (fun t ht => absurd ht (List.not_mem_nil t)) h

/-- Witness for C2 (amended) on a concrete three-tile loop. -/
theorem merge_loop_deferred_cleanup_witness :
    ((runLoop outTif [pB, pC] 1 ⟨fs3, pA, []⟩).2 = true →
      ∀ t ∈ (runLoop outTif [pB, pC] 1 ⟨fs3, pA, []⟩).1.temps,
        (alookup (runLoop outTif [pB, pC] 1 ⟨fs3, pA, []⟩).1.fs t).isSome = true) ∧
    ((runLoop outTif [pB, pC] 1 ⟨fs3, pA, []⟩).2 = false →
      ∀ t ∈ (runLoop outTif [pB, pC] 1 ⟨fs3, pA, []⟩).1.temps.dropLast,
        (alookup (runLoop outTif [pB, pC] 1 ⟨fs3, pA, []⟩).1.fs t).isSome = true) :=
  merge_loop_deferred_cleanup outTif [pB, pC] fs3 pA
    (runLoop outTif [pB, pC] 1 ⟨fs3, pA, []⟩).1
    (runLoop outTif [pB, pC] 1 ⟨fs3, pA, []⟩).2 rfl

/-- C3: whenever `merge_rasters` returns successfully on a non-empty
input, a file sits at the output path and no step's temp path holds a
file any more (the final intermediate was renamed onto the output, any
pre-existing output removed first, and all temps cleaned). -/
theorem merge_success_promotes_and_cleans (paths : List Path) (out : Path)
    (fs fs' : FS) (hne : paths ≠ [])
    (h : merge_rasters paths out fs = (fs', true)) :
    (∃ r, alookup fs' out = some r) ∧
    ∀ i, 1 ≤ i → i < paths.length → alookup fs' (tempPath out i) = none := by
  cases paths with
  | nil => exact absurd rfl hne
  | cons p0 rest =>
    have hs := merge_success_spec p0 rest out fs fs' h
    cases rest with
    | nil =>
      rcases hs.1 rfl with ⟨r, _, hfs⟩
      refine ⟨⟨r, by rw [hfs, alookup_awrite, if_pos rfl]⟩, ?_⟩
      intro i h1 h2
      simp only [List.length_cons, List.length_nil] at h2
      omega
    | cons q qs =>
      rcases hs.2 (fun he => List.noConfusion he) with ⟨st, r, _, _, hout, htemps⟩
      refine ⟨⟨r, hout⟩, fun i h1 h2 => htemps i h1 ?_⟩
      simp only [List.length_cons] at h2 ⊢
      omega

/-- Witness for C3 on a concrete two-tile merge. -/
theorem merge_success_promotes_and_cleans_witness :
    (∃ r, alookup (merge_rasters [pA, pB] outTif fs3).1 outTif = some r) ∧
    ∀ i, 1 ≤ i → i < ([pA, pB] : List Path).length →
      alookup (merge_rasters [pA, pB] outTif fs3).1 (tempPath outTif i) = none :=
  merge_success_promotes_and_cleans [pA, pB] outTif fs3
    (merge_rasters [pA, pB] outTif fs3).1 (by decide) (by decide)

/-- C4: nodata never overwrites data — when tile `b`'s value at an
overlapping coordinate is its nodata value while tile `a` holds a real
value `v` there, the pairwise mosaic of `(a, b)` holds `v`. -/
theorem mosaic_nodata_never_overwrites (a b : Raster) (p : Coord) (v w : Int)
    (ha : valueAt a p = some v) (hv : v ≠ a.nodata)
    (hb : valueAt b p = some w) (hw : w = b.nodata) :
    valueAt (mergePair a b) p = some v := by
  rw [valueAt_mergePair a b p (mem_unionCoords_left a b p v ha),
    sourceVal_eq_of_valid a p v ha hv]
  rfl

/-- Witness for C4: `tileN` holds its nodata value over `tileA`'s 5. -/
theorem mosaic_nodata_never_overwrites_witness :
    valueAt (mergePair tileA tileN) (0, 0) = some 5 :=
  mosaic_nodata_never_overwrites tileA tileN (0, 0) 5 0
    (by decide) (by decide) (by decide) (by decide)

/-- C5: the single-tile merge copies the tile's metadata and pixels
verbatim to the output path — the raster stored there is the input
raster itself, bit-identical in pixels, transform, CRS and nodata. -/
theorem merge_single_identity (t out : Path) (fs : FS) (r : Raster)
    (h : alookup fs t = some r) :
    merge_rasters [t] out fs = (awrite fs out r, true) ∧
    alookup (awrite fs out r) out = some r := by
  constructor
  · simp only [merge_rasters, runLoop, h, cleanupAll, List.foldl_nil]
  · rw [alookup_awrite, if_pos rfl]

/-- Witness for C5 at a concrete tile. -/
theorem merge_single_identity_witness :
    merge_rasters [pA] outTif fs3 = (awrite fs3 outTif tileA, true) ∧
    alookup (awrite fs3 outTif tileA) outTif = some tileA :=
  merge_single_identity pA outTif fs3 tileA (by decide)

/-- C6: merging an empty sequence of paths is a no-op that returns
immediately: the file system is unchanged (no output, no temp
artifacts) and no error is raised. -/
theorem merge_empty_noop (out : Path) (fs : FS) :
    merge_rasters [] out fs = (fs, true) := rfl

/-- C7: masking a readable source with a non-empty geometry set writes
a raster at the output path whose height, width and transform are those
of the cropped window, while CRS, band count, datatype and nodata are
carried over unchanged from the source. -/
theorem mask_preserves_source_meta (maskFn : Raster → List Geom → CropRes)
    (fs : FS) (raster_path output_path : Path) (shapes : List Geom) (src : Raster)
    (hshapes : shapes ≠ [])
    (hsrc : alookup fs raster_path = some src) :
    (mask_raster_with_geometry maskFn fs raster_path shapes output_path).2 = true ∧
    ∃ dst, alookup
        (mask_raster_with_geometry maskFn fs raster_path shapes output_path).1
        output_path = some dst ∧
      dst.height = (maskFn src shapes).height ∧
      dst.width = (maskFn src shapes).width ∧
      dst.transform = (maskFn src shapes).transform ∧
      dst.crs = src.crs ∧ dst.count = src.count ∧
      dst.dtype = src.dtype ∧ dst.nodata = src.nodata := by
  constructor
  · simp only [mask_raster_with_geometry, hsrc]
  · refine ⟨maskOutput src (maskFn src shapes), ?_, rfl, rfl, rfl, rfl, rfl, rfl, rfl⟩
    simp only [mask_raster_with_geometry, hsrc]
    rw [alookup_awrite, if_pos rfl]

/-- Witness for C7 at a concrete source raster and crop result. -/
theorem mask_preserves_source_meta_witness :
    (mask_raster_with_geometry (fun _ _ => cropSample) fs3 pA [0] outTif).2 = true ∧
    ∃ dst, alookup
        (mask_raster_with_geometry (fun _ _ => cropSample) fs3 pA [0] outTif).1
        outTif = some dst ∧
      dst.height = cropSample.height ∧
      dst.width = cropSample.width ∧
      dst.transform = cropSample.transform ∧
      dst.crs = tileA.crs ∧ dst.count = tileA.count ∧
      dst.dtype = tileA.dtype ∧ dst.nodata = tileA.nodata :=
  mask_preserves_source_meta (fun _ _ => cropSample) fs3 pA outTif [0] tileA
    (by decide) (by decide)

/-- C8: the decorator returns the wrapped call's result unchanged when
it returns normally, and swallows any exception it raises, returning
the empty result `none` instead of propagating. -/
theorem handle_exceptions_spec {α ε β : Type} (func : α → Except ε β) (a : α)
    (b : β) (e : ε) :
    (func a = Except.ok b → handle_exceptions func a = some b) ∧
    (func a = Except.error e → handle_exceptions func a = none) := by
  constructor
  · intro h
    simp only [handle_exceptions, h]
  · intro h
    simp only [handle_exceptions, h]

/-- Witness for C8: the sample call succeeds on 1 and raises on 0. -/
theorem handle_exceptions_spec_witness :
    handle_exceptions sampleCall 1 = some 2 ∧
    handle_exceptions sampleCall 0 = none :=
  ⟨(handle_exceptions_spec sampleCall 1 2 9).1 rfl,
   (handle_exceptions_spec sampleCall 0 2 9).2 rfl⟩

/-- C9: each pairwise step copies the current mosaic's metadata,
replacing only driver, height, width and transform; consequently a
successful merge leaves at the output a raster whose CRS, datatype,
nodata and band count are those of the first input tile, whatever the
later tiles carry. -/
theorem merge_meta_from_first_tile (paths : List Path) (p0 : Path)
    (rest : List Path) (out : Path) (fs fs' : FS) (r0 : Raster)
    (hp : paths = p0 :: rest)
    (h : merge_rasters paths out fs = (fs', true))
    (h0 : alookup fs p0 = some r0) :
    (∀ r1 r2 : Raster, (mergePair r1 r2).crs = r1.crs ∧
      (mergePair r1 r2).dtype = r1.dtype ∧
      (mergePair r1 r2).nodata = r1.nodata ∧
      (mergePair r1 r2).count = r1.count) ∧
    ∃ r, alookup fs' out = some r ∧
      r.crs = r0.crs ∧ r.dtype = r0.dtype ∧
      r.nodata = r0.nodata ∧ r.count = r0.count := by
  subst hp
  refine ⟨fun r1 r2 => ⟨rfl, rfl, rfl, rfl⟩, ?_⟩
  have hs := merge_success_spec p0 rest out fs fs' h
  cases rest with
  | nil =>
    rcases hs.1 rfl with ⟨r, hr, hfs⟩
    rw [h0] at hr
    injection hr with hr
    subst hr
    exact ⟨r0, by rw [hfs, alookup_awrite, if_pos rfl], rfl, rfl, rfl, rfl⟩
  | cons q qs =>
    rcases hs.2 (fun he => List.noConfusion he) with ⟨st, r, hloop, hcur, hout, _⟩
    have hinv := runLoop_cur_val out
      (fun c => c.crs = r0.crs ∧ c.dtype = r0.dtype ∧
        c.nodata = r0.nodata ∧ c.count = r0.count)
      (fun r1 r2 hr1 => ⟨hr1.1, hr1.2.1, hr1.2.2.1, hr1.2.2.2⟩)
      (q :: qs) 1 ⟨fs, p0, []⟩ st hloop ⟨r0, h0, rfl, rfl, rfl, rfl⟩
    rcases hinv with ⟨c', hc', hP⟩
    have heq : r = c' := by
      have := hcur.symm.trans hc'
      injection this
    subst heq
    exact ⟨r, hout, hP.1, hP.2.1, hP.2.2.1, hP.2.2.2⟩

/-- Witness for C9 on a concrete three-tile merge whose later tiles
carry entirely different metadata. -/
theorem merge_meta_from_first_tile_witness :
    (∀ r1 r2 : Raster, (mergePair r1 r2).crs = r1.crs ∧
      (mergePair r1 r2).dtype = r1.dtype ∧
      (mergePair r1 r2).nodata = r1.nodata ∧
      (mergePair r1 r2).count = r1.count) ∧
    ∃ r, alookup (merge_rasters [pA, pB, pD] outTif fs4).1 outTif = some r ∧
      r.crs = tileA.crs ∧ r.dtype = tileA.dtype ∧
      r.nodata = tileA.nodata ∧ r.count = tileA.count :=
  merge_meta_from_first_tile [pA, pB, pD] pA [pB, pD] outTif fs4
    (merge_rasters [pA, pB, pD] outTif fs4).1 tileA rfl (by decide) (by decide)

/-- C10: temp paths come from replacing `'.tif'` in the destination
path; when the destination contains no `'.tif'` the replacement is the
identity, so the temp path of every step equals the destination path
itself and intermediate results are written directly over it. -/
theorem temp_path_collides_without_tif (out : Path)
    (h : hasSub tifChars out = false) (i : Nat) : tempPath out i = out :=
  tempPath_eq_of_no_tif out h i

/-- Witness for C10 at the extension-less destination `out`. -/
theorem temp_path_collides_without_tif_witness :
    hasSub tifChars ['o', 'u', 't'] = false ∧
    tempPath ['o', 'u', 't'] 1 = ['o', 'u', 't'] :=
  ⟨by decide, temp_path_collides_without_tif ['o', 'u', 't'] (by decide) 1⟩

end StarterKits
